import Mathlib

/-!
# hipsterdomain: suffix trie, candidate generation and lookup classification

A shallow embedding of `hipsterdomain.go`.

* A Go `string` is a finite sequence of bytes: `GoString := List UInt8`.
* A Go `map[byte]*PostfixTree` is a partial function on bytes; the `nil` map of the
  zero value is kept apart from an allocated map (`Option`).
* Index and slice expressions are checked: an out-of-range access makes the embedded
  function return `none` (the Go program would abort there).
* Loops carry fuel; exhausted fuel is `none` as well.  The entry points supply the fuel.
* `net.LookupNS` is an input: a function from the queried name to the pair it returns.
* Standard output and standard error are the sequences of writes made to them.
-/

namespace Hipsterdomain

/-- A Go string: a sequence of bytes. -/
abbrev GoString := List UInt8

/-- The bytes of an ASCII literal. -/
def ascii (s : String) : GoString := s.data.map (fun c => c.toNat.toUInt8)

/-- Index expression `s[i]`, `none` when `i` is out of range. -/
def index (s : GoString) (i : Nat) : Option UInt8 := s[i]?

/-- Slice expression `s[lo:hi]`, `none` unless `lo ≤ hi ≤ len(s)`. -/
def slice (s : GoString) (lo hi : Nat) : Option GoString :=
  if lo ≤ hi ∧ hi ≤ s.length then some ((s.take hi).drop lo) else none

/-! ## PostfixTree -/

/-- `type PostfixTree struct { subTrees map[byte]*PostfixTree; contained bool }`. -/
inductive PostfixTree where
  | mk (subTrees : Option (UInt8 → Option PostfixTree)) (contained : Bool) : PostfixTree

namespace PostfixTree

/-- Field `subTrees`; `none` is the nil map. -/
def subTrees : PostfixTree → Option (UInt8 → Option PostfixTree)
  | mk m _ => m

/-- Field `contained`. -/
def contained : PostfixTree → Bool
  | mk _ c => c

/-- The zero value `PostfixTree{}` (also what `new(PostfixTree)` points to). -/
def zero : PostfixTree := mk none false

/-- Map read `subTree, ok := tree.subTrees[b]`; reading a nil map finds nothing. -/
def lookup (tree : PostfixTree) (b : UInt8) : Option PostfixTree :=
  match tree.subTrees with
  | none => none
  | some m => m b

/-- The `for len(postfix) > 0` loop of `AddPostfix`, started at node `tree`.
The result is `tree` after the loop has run: the nodes below it are updated through
the pointers held in the maps, which here is the write-back of the updated child. -/
def addLoop : Nat → PostfixTree → GoString → Option PostfixTree
  | 0, _, _ => none
  | fuel + 1, tree, pfx =>
    if pfx.length > 0 then
      match index pfx (pfx.length - 1) with
      | none => none
      | some lastByte =>
        -- if tree.subTrees == nil { tree.subTrees = make(map[byte]*PostfixTree) }
        let m : UInt8 → Option PostfixTree :=
          match tree.subTrees with
          | none => fun _ => none
          | some m => m
        -- subTree, ok := tree.subTrees[lastByte]; if !ok { subTree = new(PostfixTree); ... }
        let subTree : PostfixTree :=
          match m lastByte with
          | some s => s
          | none => zero
        -- tree = subTree; postfix = postfix[0 : len(postfix)-1]
        match slice pfx 0 (pfx.length - 1) with
        | none => none
        | some pfx1 =>
          match addLoop fuel subTree pfx1 with
          | none => none
          | some subTree1 =>
            some (mk (some (fun k => if k = lastByte then some subTree1 else m k))
              tree.contained)
    else
      -- tree.contained = true
      some (mk tree.subTrees true)

/-- `func (pt *PostfixTree) AddPostfix(postfix string)`: the tree after the call. -/
def AddPostfix (pt : PostfixTree) (pfx : GoString) : Option PostfixTree :=
  addLoop (pfx.length + 1) pt pfx

/-- The `for { ... }` loop of `GetPostfixes` with loop variables `tree`, `ptr`,
`postfixes`. -/
def getLoop (word : GoString) :
    Nat → PostfixTree → Nat → List GoString → Option (List GoString)
  | 0, _, _, _ => none
  | fuel + 1, tree, ptr, postfixes =>
    let appended : Option (List GoString) :=
      if tree.contained then
        match slice word ptr word.length with
        | none => none
        | some s => some (postfixes ++ [s])
      else some postfixes
    match appended with
    | none => none
    | some postfixes1 =>
      if ptr = 0 then some postfixes1
      else
        match index word (ptr - 1) with
        | none => none
        | some b =>
          match tree.lookup b with
          | none => some postfixes1
          | some subTree => getLoop word fuel subTree (ptr - 1) postfixes1

/-- `func (pt *PostfixTree) GetPostfixes(word string) []string`. -/
def GetPostfixes (pt : PostfixTree) (word : GoString) : Option (List GoString) :=
  getLoop word (word.length + 1) pt word.length []

/-- Successive `AddPostfix` calls, as in `for _, tld := range tlds { tldsPt.AddPostfix(tld) }`. -/
def addAll : PostfixTree → List GoString → Option PostfixTree
  | pt, [] => some pt
  | pt, tld :: tlds =>
    match pt.AddPostfix tld with
    | none => none
    | some pt1 => addAll pt1 tlds

end PostfixTree

/-- `fmt.Sprintf("%s.%s", a, b)`. -/
def sprintfDot (a b : GoString) : GoString := a ++ ascii "." ++ b

/-- The `range` loop of `postfixSplit` over the remaining postfixes. -/
def splitLoop (name : GoString) : List GoString → List GoString → Option (List GoString)
  | [], results => some results
  | pfx :: rest, results =>
    if pfx.length ≤ name.length then
      match slice name 0 (name.length - pfx.length) with
      | none => none
      | some label => splitLoop name rest (results ++ [sprintfDot label pfx])
    else none

/-- `func postfixSplit(name string, pt *PostfixTree) []string`. -/
def postfixSplit (name : GoString) (pt : PostfixTree) : Option (List GoString) :=
  match pt.GetPostfixes name with
  | none => none
  | some postfixes => splitLoop name postfixes []

/-! ## Name-server lookup and the worker loop -/

/-- The exported fields of the standard library's `net.DNSError`. -/
structure DNSError where
  Err : GoString
  Name : GoString
  Server : GoString
  IsTimeout : Bool
  IsTemporary : Bool
  IsNotFound : Bool
  deriving DecidableEq

/-- A non-nil value of the interface type `error`, by dynamic type: a `*net.DNSError`
(pointing to a struct), or a value of any other type, given by a tag for its type and
its message. -/
inductive GoError where
  | dnsError (e : DNSError) : GoError
  | other (typeTag : Nat) (msg : GoString) : GoError
  deriving DecidableEq

/-- The standard library's `net.NS`. -/
structure NS where
  Host : GoString
  deriving DecidableEq

/-- The pair `([]*NS, error)` returned by `net.LookupNS`; `none` is the nil error. -/
abbrev LookupResult := List NS × Option GoError

/-- The text compared against `err.Err` in `domainExists`. -/
def noSuchHost : GoString := ascii "no such host"

/-- `func domainExists(name string) (bool, error)`, with `net.LookupNS` as a parameter. -/
def domainExists (LookupNS : GoString → LookupResult) (name : GoString) :
    Bool × Option GoError :=
  match LookupNS name with
  | (_, some err) =>
    match err with
    | GoError.dnsError e =>
      if e.Err = noSuchHost then (false, none) else (false, some err)
    | GoError.other _ _ => (false, some err)
  | (nss, none) => (decide (nss.length > 0), none)

/-- What has been written to standard output and to standard error, one entry per write. -/
structure Sinks where
  stdout : List GoString
  stderr : List GoString
  deriving DecidableEq

/-- The body of the `for domain := range domainChan` loop of `domainHandler`.
`errorText` is the `Error()` method, used by the `%s` verb. -/
def handleDomain (LookupNS : GoString → LookupResult) (errorText : GoError → GoString)
    (out : Sinks) (domain : GoString) : Sinks :=
  match domainExists LookupNS domain with
  | (_, some err) =>
    -- fmt.Fprintf(os.Stderr, "%s: %s\n", domain, err)
    { out with stderr := out.stderr ++ [domain ++ ascii ": " ++ errorText err ++ [10]] }
  | (found, none) =>
    if !found then
      -- fmt.Printf("%s\n", domain)
      { out with stdout := out.stdout ++ [domain ++ [10]] }
    else out

/-- `func domainHandler(domainChan chan string)`, run on the sequence of values this
worker receives from the channel until it is closed. -/
def domainHandler (LookupNS : GoString → LookupResult) (errorText : GoError → GoString)
    (domainChan : List GoString) (out : Sinks) : Sinks :=
  domainChan.foldl (handleDomain LookupNS errorText) out

/-- The three outcomes `domainHandler` tells apart in the pair returned by
`domainExists`: `err != nil`, then `!exists`, then neither. -/
inductive LookupOutcome where
  | Registered : LookupOutcome
  | Unregistered : LookupOutcome
  | Indeterminate : LookupOutcome
  deriving DecidableEq

/-- The branch of `domainHandler` taken on a pair returned by `domainExists`. -/
def outcomeOf : Bool × Option GoError → LookupOutcome
  | (_, some _) => LookupOutcome.Indeterminate
  | (false, none) => LookupOutcome.Unregistered
  | (true, none) => LookupOutcome.Registered

/-- The lookup failed with the resolver's error for a name that does not exist: a
`*net.DNSError` whose `Err` is the text of the library's `errNoSuchHost`. -/
def isNoSuchHost : Option GoError → Bool
  | some (GoError.dnsError e) => decide (e.Err = noSuchHost)
  | _ => false

/-- Two errors have the same dynamic type and agree on every field other than the
message text (`Err` of a `DNSError`, the message of any other error). -/
def agreeUpToMessage : GoError → GoError → Bool
  | GoError.dnsError a, GoError.dnsError b =>
    decide (a.Name = b.Name ∧ a.Server = b.Server ∧ a.IsTimeout = b.IsTimeout ∧
      a.IsTemporary = b.IsTemporary ∧ a.IsNotFound = b.IsNotFound)
  | GoError.other s _, GoError.other t _ => decide (s = t)
  | _, _ => false

/-! ## Specification-level view of the trie -/

namespace PostfixTree

/-- The node `tree` with the child under byte `b` replaced by `sub`. -/
def setChild (tree : PostfixTree) (b : UInt8) (sub : PostfixTree) : PostfixTree :=
  mk (some (fun k => if k = b then some sub else tree.lookup k)) tree.contained

/-- The child under `b`, or a fresh zero node when there is none. -/
def childOrNew (tree : PostfixTree) (b : UInt8) : PostfixTree :=
  match tree.lookup b with
  | some s => s
  | none => zero

/-- Insertion of a path (the bytes of the string, last byte first). -/
def insertRev : PostfixTree → List UInt8 → PostfixTree
  | tree, [] => mk tree.subTrees true
  | tree, b :: rest => setChild tree b (insertRev (childOrNew tree b) rest)

/-- The node reached from `tree` along the child edges `p` exists and is marked. -/
def containsPath : PostfixTree → List UInt8 → Bool
  | tree, [] => tree.contained
  | tree, b :: rest =>
    match tree.lookup b with
    | none => false
    | some s => containsPath s rest

/-- Matches found walking down from `tree` along `rest` (the unread bytes of the word,
last byte first) when `suf` is the part of the word already read. -/
def matchRev : PostfixTree → List UInt8 → GoString → List GoString
  | tree, [], suf => if tree.contained then [suf] else []
  | tree, b :: rest, suf =>
    (if tree.contained then [suf] else []) ++
      (match tree.lookup b with
       | none => []
       | some s => matchRev s rest (b :: suf))

end PostfixTree

namespace PostfixTree

/-- The node reached from `tree` by following the child edges `p[0]`, `p[1]`, ...;
`none` when an edge is missing. -/
def nodeAt : PostfixTree → List UInt8 → Option PostfixTree
  | tree, [] => some tree
  | tree, b :: rest =>
    match tree.lookup b with
    | none => none
    | some s => nodeAt s rest

end PostfixTree

/-! ## Reading the word and TLD lists -/

/-- The standard library's `strings.Split(text, "\n")`: the segments of `text` between
newline bytes (one more segment than there are newlines). -/
def splitNewline : GoString → List GoString
  | [] => [[]]
  | c :: rest =>
    if c = 10 then [] :: splitNewline rest
    else
      match splitNewline rest with
      | [] => [[c]]
      | seg :: segs => (c :: seg) :: segs

/-- The `range` loop of `splitToLinesWithComments` over the remaining segments. -/
def linesLoop : List GoString → List GoString → Option (List GoString)
  | [], lines => some lines
  | line :: rest, lines =>
    if line.length = 0 then linesLoop rest lines
    else
      match index line 0 with
      | none => none
      | some c =>
        -- '#' is byte 35
        if c = 35 then linesLoop rest lines
        else linesLoop rest (lines ++ [line])

/-- `func splitToLinesWithComments(text string) []string`. -/
def splitToLinesWithComments (text : GoString) : Option (List GoString) :=
  linesLoop (splitNewline text) []

/-! ## The goroutines of `main`

`main` starts the workers, sends every candidate on the unbuffered channel, closes the
channel and returns.  A Go program exits when `main` returns; it does not wait for other
goroutines.  The interleavings are the sequences of the events below. -/

/-- The state of a run: the candidates `main` has not sent yet, for each worker the
domain it has received and whose loop body has not completed (`none`: blocked on the
receive), the domains whose loop body has completed, the sinks, and whether `main` has
returned. -/
structure Pipeline where
  pending : List GoString
  workers : List (Option GoString)
  checked : List GoString
  out : Sinks
  exited : Bool
  deriving DecidableEq

/-- One event of a run. -/
inductive Event where
  | handOff (i : Nat) : Event
  | bodyDone (i : Nat) : Event
  | mainReturns : Event
  deriving DecidableEq

namespace Pipeline

/-- The state after `for i := 0; i < W; i++ { go domainHandler(domainChan) }` (`W` is 100
in `main`), with `candidates` still to be sent. -/
def start (W : Nat) (candidates : List GoString) : Pipeline :=
  { pending := candidates, workers := List.replicate W none, checked := [],
    out := { stdout := [], stderr := [] }, exited := false }

/-- One event, `none` when it cannot happen in state `s`.
`handOff i`: the send `domainChan <- domain` meets the receive of worker `i`.
`bodyDone i`: worker `i` completes the loop body for the domain it holds.
`mainReturns`: every candidate is sent, `close(domainChan)` runs and `main` returns, which
ends the program. -/
def step (LookupNS : GoString → LookupResult) (errorText : GoError → GoString)
    (s : Pipeline) : Event → Option Pipeline
  | Event.handOff i =>
    if s.exited then none
    else
      match s.pending, s.workers[i]? with
      | d :: rest, some none =>
        some { s with pending := rest, workers := s.workers.set i (some d) }
      | _, _ => none
  | Event.bodyDone i =>
    if s.exited then none
    else
      match s.workers[i]? with
      | some (some d) =>
        some { s with workers := s.workers.set i none, checked := s.checked ++ [d],
                      out := handleDomain LookupNS errorText s.out d }
      | _ => none
  | Event.mainReturns =>
    if s.exited then none
    else
      match s.pending with
      | [] => some { s with exited := true }
      | _ :: _ => none

/-- A sequence of events from state `s`. -/
def run (LookupNS : GoString → LookupResult) (errorText : GoError → GoString) :
    Pipeline → List Event → Option Pipeline
  | s, [] => some s
  | s, e :: es =>
    match step LookupNS errorText s e with
    | none => none
    | some s1 => run LookupNS errorText s1 es

end Pipeline

/-! ## The loops compute the specification-level functions -/

namespace PostfixTree

theorem slice_zero_eq (s : GoString) (n : Nat) (h : n ≤ s.length) :
    slice s 0 n = some (s.take n) := by
  simp [slice, h]

theorem slice_to_end (s : GoString) (n : Nat) (h : n ≤ s.length) :
    slice s n s.length = some (s.drop n) := by
  simp [slice, h]

theorem lookup_eq_of_subTrees (t : PostfixTree) :
    (match t.subTrees with
      | none => fun _ => none
      | some m => m) = t.lookup := by
  funext b
  cases t with
  | mk m c => cases m <;> rfl

theorem addLoop_eq (fuel : Nat) : ∀ (tree : PostfixTree) (p : GoString),
    p.length < fuel → addLoop fuel tree p = some (insertRev tree p.reverse) := by
  induction fuel with
  | zero => intro tree p h; omega
  | succ n ih =>
    intro tree p h
    rcases List.eq_nil_or_concat p with hp | ⟨q, b, hp⟩
    · subst hp
      simp [addLoop, insertRev]
    · rw [List.concat_eq_append] at hp
      subst hp
      have hq : q.length < n := by simp at h; omega
      have hidx : index (q ++ [b]) ((q ++ [b]).length - 1) = some b := by
        simp [index]
      have hsl : slice (q ++ [b]) 0 ((q ++ [b]).length - 1) = some q := by
        rw [slice_zero_eq _ _ (by simp)]
        simp
      have hpos : (q ++ [b]).length > 0 := by simp
      rw [addLoop, if_pos hpos]
      simp only [hidx, hsl, lookup_eq_of_subTrees]
      have := ih (childOrNew tree b) q hq
      simp only [childOrNew] at this
      simp only [this]
      simp [insertRev, setChild, childOrNew]

theorem AddPostfix_eq (pt : PostfixTree) (p : GoString) :
    pt.AddPostfix p = some (pt.insertRev p.reverse) :=
  addLoop_eq _ pt p (Nat.lt_succ_self _)

theorem getLoop_eq (word : GoString) (fuel : Nat) :
    ∀ (tree : PostfixTree) (ptr : Nat) (acc : List GoString),
      ptr ≤ word.length → ptr < fuel →
      getLoop word fuel tree ptr acc =
        some (acc ++ matchRev tree (word.take ptr).reverse (word.drop ptr)) := by
  induction fuel with
  | zero => intro tree ptr acc _ h; omega
  | succ n ih =>
    intro tree ptr acc hle hlt
    cases ptr with
    | zero =>
      cases hc : tree.contained <;>
        simp [getLoop, hc, matchRev, slice_to_end]
    | succ p =>
      have hp : p < word.length := by omega
      have hidx : index word (p + 1 - 1) = some word[p] := by
        simp [index, List.getElem?_eq_getElem hp]
      have htake : (word.take (p + 1)).reverse = word[p] :: (word.take p).reverse := by
        rw [List.take_succ, List.getElem?_eq_getElem hp]
        simp
      rw [getLoop, htake, matchRev]
      simp only [slice_to_end word (p + 1) hle, hidx]
      cases hl : tree.lookup word[p] with
      | none =>
        cases hc : tree.contained <;> simp
      | some sub =>
        cases hc : tree.contained
        · simp [ih sub p acc (by omega) (by omega)]
        · simp [ih sub p (acc ++ [word.drop (p + 1)]) (by omega) (by omega)]

theorem GetPostfixes_eq (pt : PostfixTree) (word : GoString) :
    pt.GetPostfixes word = some (matchRev pt word.reverse []) := by
  have := getLoop_eq word (word.length + 1) pt word.length [] (le_refl _) (Nat.lt_succ_self _)
  simpa [GetPostfixes] using this

theorem containsPath_zero (p : List UInt8) : containsPath zero p = false := by
  cases p <;> rfl

theorem containsPath_childOrNew (t : PostfixTree) (b : UInt8) (p : List UInt8) :
    containsPath (childOrNew t b) p = containsPath t (b :: p) := by
  simp only [childOrNew, containsPath]
  cases t.lookup b with
  | none => exact containsPath_zero p
  | some s => rfl

theorem subTrees_mk_self (t : PostfixTree) (c : Bool) (b : UInt8) :
    (mk t.subTrees c).lookup b = t.lookup b := rfl

theorem lookup_setChild (t s : PostfixTree) (b k : UInt8) :
    (setChild t b s).lookup k = if k = b then some s else t.lookup k := rfl

theorem containsPath_insertRev (q : List UInt8) :
    ∀ (t : PostfixTree) (p : List UInt8),
      containsPath (insertRev t q) p = (decide (p = q) || containsPath t p) := by
  induction q with
  | nil =>
    intro t p
    cases p with
    | nil => simp [insertRev, containsPath, contained]
    | cons b rest => simp [insertRev, containsPath, subTrees_mk_self]
  | cons c q ih =>
    intro t p
    cases p with
    | nil => simp [insertRev, containsPath, setChild, contained]
    | cons b rest =>
      rw [insertRev, containsPath, lookup_setChild]
      by_cases hbc : b = c
      · subst hbc
        simp [ih, containsPath_childOrNew]
      · simp [hbc, containsPath]

theorem mem_matchRev (rest : List UInt8) :
    ∀ (t : PostfixTree) (suf s : GoString),
      s ∈ matchRev t rest suf ↔
        ∃ p q, rest = p ++ q ∧ containsPath t p = true ∧ s = p.reverse ++ suf := by
  induction rest with
  | nil =>
    intro t suf s
    cases hc : t.contained <;> simp [matchRev, hc, containsPath]
  | cons b rest ih =>
    intro t suf s
    rw [matchRev, List.mem_append]
    constructor
    · rintro (h | h)
      · cases hc : t.contained
        · simp [hc] at h
        · simp [hc] at h
          exact ⟨[], b :: rest, rfl, by simpa [containsPath] using hc, by simpa using h⟩
      · cases hl : t.lookup b with
        | none => simp [hl] at h
        | some sub =>
          simp only [hl] at h
          obtain ⟨p, q, hpq, hcp, hs⟩ := (ih sub (b :: suf) s).1 h
          exact ⟨b :: p, q, by simp [hpq], by simpa [containsPath, hl] using hcp,
            by simpa using hs⟩
    · rintro ⟨p, q, hpq, hcp, hs⟩
      cases p with
      | nil =>
        left
        simp [containsPath] at hcp
        simp [hcp, hs]
      | cons c p =>
        right
        simp only [List.cons_append, List.cons.injEq] at hpq
        obtain ⟨hcb, hrest⟩ := hpq
        subst hcb
        cases hl : t.lookup b with
        | none => simp [containsPath, hl] at hcp
        | some sub =>
          simp only [containsPath, hl] at hcp
          exact (ih sub (b :: suf) s).2 ⟨p, q, hrest, hcp, by simpa using hs⟩

theorem length_le_of_mem_matchRev {rest : List UInt8} {t : PostfixTree} {suf s : GoString}
    (h : s ∈ matchRev t rest suf) : suf.length ≤ s.length := by
  obtain ⟨p, q, _, _, hs⟩ := (mem_matchRev rest t suf s).1 h
  subst hs
  simp

theorem matchRev_pairwise (rest : List UInt8) :
    ∀ (t : PostfixTree) (suf : GoString),
      (matchRev t rest suf).Pairwise (fun a b => a.length < b.length) := by
  induction rest with
  | nil =>
    intro t suf
    cases hc : t.contained <;> simp [matchRev, hc]
  | cons b rest ih =>
    intro t suf
    rw [matchRev]
    cases hl : t.lookup b with
    | none => cases hc : t.contained <;> simp [hc]
    | some sub =>
      cases hc : t.contained
      · simpa [hc] using ih sub (b :: suf)
      · simp only [hc, if_true, List.singleton_append, List.pairwise_cons]
        refine ⟨fun s hs => ?_, ih sub (b :: suf)⟩
        have := length_le_of_mem_matchRev hs
        simp at this
        omega

theorem mem_matchRev_word (t : PostfixTree) (w s : GoString) :
    s ∈ matchRev t w.reverse [] ↔ s <:+ w ∧ containsPath t s.reverse = true := by
  rw [mem_matchRev]
  constructor
  · rintro ⟨p, q, hpq, hcp, hs⟩
    simp only [List.append_nil] at hs
    subst hs
    refine ⟨⟨q.reverse, ?_⟩, by simpa using hcp⟩
    have := congrArg List.reverse hpq
    simpa using this.symm
  · rintro ⟨⟨r, hr⟩, hcp⟩
    refine ⟨s.reverse, r.reverse, ?_, hcp, by simp⟩
    rw [← hr]
    simp

/-- The tree after inserting every string of `T`, at the level of `insertRev`. -/
theorem addAll_eq (T : List GoString) : ∀ (pt : PostfixTree),
    addAll pt T = some (T.foldl (fun t p => insertRev t p.reverse) pt) := by
  induction T with
  | nil => intro pt; rfl
  | cons a T ih =>
    intro pt
    simp [addAll, AddPostfix_eq, ih]

theorem containsPath_foldl (T : List GoString) : ∀ (pt : PostfixTree) (p : List UInt8),
    containsPath (T.foldl (fun t q => insertRev t q.reverse) pt) p =
      (decide (p.reverse ∈ T) || containsPath pt p) := by
  induction T with
  | nil => intro pt p; simp
  | cons a T ih =>
    intro pt p
    rw [List.foldl_cons, ih, containsPath_insertRev]
    have : (p = a.reverse) ↔ (p.reverse = a) := by
      constructor
      · intro h; simp [h]
      · intro h; simp [← h]
    by_cases h1 : p.reverse = a
    · simp [h1, this.2 h1]
    · have h2 : ¬ p = a.reverse := fun h => h1 (this.1 h)
      simp [h1, h2]

theorem splitLoop_eq (name : GoString) (ps : List GoString) :
    ∀ (acc : List GoString), (∀ s ∈ ps, s.length ≤ name.length) →
      splitLoop name ps acc =
        some (acc ++ ps.map (fun s => sprintfDot (name.take (name.length - s.length)) s)) := by
  induction ps with
  | nil => intro acc _; simp [splitLoop]
  | cons a ps ih =>
    intro acc h
    have ha : a.length ≤ name.length := h a (List.mem_cons_self _ _)
    rw [splitLoop, if_pos ha, slice_zero_eq _ _ (Nat.sub_le _ _)]
    simp only
    rw [ih _ (fun s hs => h s (List.mem_cons_of_mem _ hs))]
    simp

theorem postfixSplit_eq (name : GoString) (pt : PostfixTree) :
    postfixSplit name pt =
      some ((matchRev pt name.reverse []).map
        (fun s => sprintfDot (name.take (name.length - s.length)) s)) := by
  rw [postfixSplit, GetPostfixes_eq]
  simp only
  rw [splitLoop_eq]
  · simp
  · intro s hs
    exact ((mem_matchRev_word pt name s).1 hs).1.length_le

theorem setChild_setChild (t x y : PostfixTree) (b : UInt8) :
    setChild (setChild t b x) b y = setChild t b y := by
  have hf : (fun k => if k = b then some y else (setChild t b x).lookup k) =
      (fun k => if k = b then some y else t.lookup k) := by
    funext k
    by_cases hk : k = b <;> simp [hk, lookup_setChild]
  show mk (some (fun k => if k = b then some y else (setChild t b x).lookup k))
      (setChild t b x).contained = mk (some (fun k => if k = b then some y else t.lookup k))
      t.contained
  rw [hf]
  rfl

theorem insertRev_idem (q : List UInt8) : ∀ (t : PostfixTree),
    insertRev (insertRev t q) q = insertRev t q := by
  induction q with
  | nil => intro t; rfl
  | cons b q ih =>
    intro t
    have hc : childOrNew (setChild t b (insertRev (childOrNew t b) q)) b =
        insertRev (childOrNew t b) q := by
      simp [childOrNew, lookup_setChild]
    rw [insertRev, insertRev, hc, ih, setChild_setChild]

end PostfixTree

open PostfixTree

/-! ## Matching and candidate generation -/

/-- C1. Completeness of matching: after inserting the strings of `T` one by one into the
zero-value tree, every `t ∈ T` that is a byte-wise suffix of `x` is an element of
`GetPostfixes(x)` (the insertions and the lookup all return). -/
theorem GetPostfixes_complete (T : List GoString) (t x : GoString)
    (ht : t ∈ T) (hx : t <:+ x) :
    ∃ pt, addAll zero T = some pt ∧ ∃ l, pt.GetPostfixes x = some l ∧ t ∈ l := by
  refine ⟨_, addAll_eq T zero, _, GetPostfixes_eq _ x, ?_⟩
  rw [mem_matchRev_word]
  refine ⟨hx, ?_⟩
  rw [containsPath_foldl]
  simp [ht]

/-- Scenario A of the specification as an instance of C1: with `io` inserted, `io` is
among the matches of `radio`. -/
theorem GetPostfixes_complete_witness :
    ascii "io" ∈ [ascii "io"] ∧ ascii "io" <:+ ascii "radio" ∧
      ∃ pt, addAll zero [ascii "io"] = some pt ∧
        ∃ l, pt.GetPostfixes (ascii "radio") = some l ∧ ascii "io" ∈ l :=
  ⟨by decide, by decide,
    GetPostfixes_complete [ascii "io"] (ascii "io") (ascii "radio") (by decide) (by decide)⟩

/-- C2. No-match case: after inserting the strings of `T` into the zero-value tree, a word
`x` that ends with no element of `T` has `GetPostfixes(x)` empty and `postfixSplit`
produces no candidate. -/
theorem GetPostfixes_no_match (T : List GoString) (x : GoString)
    (h : ∀ t ∈ T, ¬ t <:+ x) :
    ∃ pt, addAll zero T = some pt ∧ pt.GetPostfixes x = some [] ∧
      postfixSplit x pt = some [] := by
  have hnil : matchRev (T.foldl (fun t p => insertRev t p.reverse) zero) x.reverse [] = [] := by
    rw [List.eq_nil_iff_forall_not_mem]
    intro s hs
    rw [mem_matchRev_word, containsPath_foldl] at hs
    obtain ⟨hsuf, hc⟩ := hs
    simp [containsPath_zero] at hc
    exact h s hc hsuf
  refine ⟨_, addAll_eq T zero, ?_, ?_⟩
  · rw [GetPostfixes_eq, hnil]
  · rw [postfixSplit_eq, hnil]
    rfl

/-- Scenario C of the specification as an instance of C2: with `com` inserted, `apple`
has no match and no candidate. -/
theorem GetPostfixes_no_match_witness :
    (∀ t ∈ [ascii "com"], ¬ t <:+ ascii "apple") ∧
      ∃ pt, addAll zero [ascii "com"] = some pt ∧ pt.GetPostfixes (ascii "apple") = some [] ∧
        postfixSplit (ascii "apple") pt = some [] :=
  ⟨by decide, GetPostfixes_no_match [ascii "com"] (ascii "apple") (by decide)⟩

/-- C3. Ordering of matches: for every tree and every word, `GetPostfixes` returns a list
in which every entry is strictly shorter than every later entry (so each entry is strictly
longer than the one before it); with `a` and `ta` inserted, `data` gives `[a, ta]`. -/
theorem GetPostfixes_strictly_increasing :
    (∀ (pt : PostfixTree) (x : GoString),
      ∃ l, pt.GetPostfixes x = some l ∧
        l.Pairwise (fun a b => a.length < b.length) ∧
        l.Chain' (fun a b => a.length < b.length)) ∧
    ((addAll zero [ascii "a", ascii "ta"]).bind (fun pt => pt.GetPostfixes (ascii "data")) =
      some [ascii "a", ascii "ta"]) := by
  refine ⟨fun pt x => ⟨_, GetPostfixes_eq pt x, matchRev_pairwise _ _ _, ?_⟩, by decide⟩
  exact List.Pairwise.chain' (matchRev_pairwise _ _ _)

/-- C4. Candidate construction: for every word `w` and every tree, `postfixSplit` returns
one candidate per element of `GetPostfixes(w)`, in the same order, the `i`-th being
`w[0 : len(w)-len(s)] + "." + s` for the `i`-th match `s`; with `a` and `ta` inserted,
`data` gives `[dat.a, da.ta]`. -/
theorem postfixSplit_candidates :
    (∀ (w : GoString) (pt : PostfixTree),
      ∃ ps cs, pt.GetPostfixes w = some ps ∧ postfixSplit w pt = some cs ∧
        cs.length = ps.length ∧
        (∀ i : Nat, cs[i]? =
          (ps[i]?).bind (fun s =>
            (slice w 0 (w.length - s.length)).map (fun label => label ++ ascii "." ++ s)))) ∧
    ((addAll zero [ascii "a", ascii "ta"]).bind (fun pt => postfixSplit (ascii "data") pt) =
      some [ascii "dat.a", ascii "da.ta"]) := by
  refine ⟨fun w pt => ⟨_, _, GetPostfixes_eq pt w, postfixSplit_eq w pt, ?_, ?_⟩, by decide⟩
  · simp
  · intro i
    have hs : ∀ s : GoString, slice w 0 (w.length - s.length) =
        some (w.take (w.length - s.length)) :=
      fun s => slice_zero_eq _ _ (Nat.sub_le _ _)
    simp only [hs, Option.map_some']
    cases h : (matchRev pt w.reverse [])[i]? <;> simp [h, sprintfDot]

/-- C5. Idempotent insertion: for every tree (reachable or not) and every string `t`, a
second `AddPostfix(t)` right after the first returns the very same tree, so
`GetPostfixes(x)` is the same after one insertion as after two, for every `x`. -/
theorem AddPostfix_idempotent (pt : PostfixTree) (t : GoString) :
    ∃ t1 t2, pt.AddPostfix t = some t1 ∧ t1.AddPostfix t = some t2 ∧ t2 = t1 ∧
      ∀ x, t2.GetPostfixes x = t1.GetPostfixes x := by
  refine ⟨_, _, AddPostfix_eq pt t, AddPostfix_eq _ t, insertRev_idem _ _, ?_⟩
  intro x
  rw [insertRev_idem]

/-- C6. Self-match: if `t ∈ T`, then after inserting the strings of `T` into the
zero-value tree `GetPostfixes(t)` contains `t`; and when `t` is non-empty and no other
element of `T` is a suffix of `t`, the result is exactly `[t]`. -/
theorem GetPostfixes_self (T : List GoString) (t : GoString) (ht : t ∈ T) :
    ∃ pt, addAll zero T = some pt ∧ ∃ l, pt.GetPostfixes t = some l ∧ t ∈ l ∧
      (t ≠ [] → (∀ s ∈ T, s <:+ t → s = t) → l = [t]) := by
  refine ⟨_, addAll_eq T zero, _, GetPostfixes_eq _ t, ?_, ?_⟩
  · rw [mem_matchRev_word, containsPath_foldl]
    exact ⟨List.suffix_refl t, by simp [ht]⟩
  · intro _ huniq
    have hmem : t ∈ matchRev (T.foldl (fun t p => insertRev t p.reverse) zero) t.reverse [] := by
      rw [mem_matchRev_word, containsPath_foldl]
      exact ⟨List.suffix_refl t, by simp [ht]⟩
    have hall : ∀ s ∈ matchRev (T.foldl (fun t p => insertRev t p.reverse) zero) t.reverse [],
        s = t := by
      intro s hs
      rw [mem_matchRev_word, containsPath_foldl] at hs
      obtain ⟨hsuf, hc⟩ := hs
      simp [containsPath_zero] at hc
      exact huniq s hc hsuf
    have hpw := matchRev_pairwise t.reverse
      (T.foldl (fun t p => insertRev t p.reverse) zero) []
    generalize matchRev (T.foldl (fun t p => insertRev t p.reverse) zero) t.reverse [] = l
      at hmem hall hpw
    cases l with
    | nil => simp at hmem
    | cons a rest =>
      have ha : a = t := hall a (List.mem_cons_self _ _)
      cases rest with
      | nil => rw [ha]
      | cons b rest2 =>
        have hb : b = t := hall b (by simp)
        have hlt : a.length < b.length := by
          have := (List.pairwise_cons.1 hpw).1 b (by simp)
          exact this
        rw [ha, hb] at hlt
        exact absurd hlt (lt_irrefl _)

/-- An instance of C6: with `a` and `io` inserted, the matches of `io` are exactly
`[io]`. -/
theorem GetPostfixes_self_witness :
    ascii "io" ∈ [ascii "a", ascii "io"] ∧
      ∃ pt, addAll zero [ascii "a", ascii "io"] = some pt ∧
        ∃ l, pt.GetPostfixes (ascii "io") = some l ∧ ascii "io" ∈ l ∧
          (ascii "io" ≠ [] → (∀ s ∈ [ascii "a", ascii "io"], s <:+ ascii "io" → s = ascii "io") →
            l = [ascii "io"]) :=
  ⟨by decide, GetPostfixes_self [ascii "a", ascii "io"] (ascii "io") (by decide)⟩

/-! ## Lookup classification and sink routing -/

/-- C7. Lookup classification: `domainExists` returns `(true, nil)` when the lookup
succeeds with at least one name-server record, `(false, nil)` when it fails with the
resolver's no-such-host error, and `(false, e)` with the same non-nil `e` for every other
lookup error `e`. -/
theorem domainExists_classification (LookupNS : GoString → LookupResult) (name : GoString) :
    (∀ ns nss, LookupNS name = (ns :: nss, none) →
      domainExists LookupNS name = (true, none)) ∧
    (∀ nss e, LookupNS name = (nss, some e) → isNoSuchHost (some e) = true →
      domainExists LookupNS name = (false, none)) ∧
    (∀ nss e, LookupNS name = (nss, some e) → isNoSuchHost (some e) = false →
      domainExists LookupNS name = (false, some e)) := by
  refine ⟨?_, ?_, ?_⟩
  · intro ns nss h
    simp [domainExists, h]
  · intro nss e h hno
    cases e with
    | dnsError d =>
      have hd : d.Err = noSuchHost := by simpa [isNoSuchHost] using hno
      simp [domainExists, h, hd]
    | other tag msg => simp [isNoSuchHost] at hno
  · intro nss e h hno
    cases e with
    | dnsError d =>
      have hd : ¬ d.Err = noSuchHost := by simpa [isNoSuchHost] using hno
      simp [domainExists, h, hd]
    | other tag msg => simp [domainExists, h]

/-- Instances of the three cases of C7: one record, the no-such-host error, a timeout. -/
theorem domainExists_classification_witness :
    domainExists (fun _ => ([⟨ascii "ns.example."⟩], none)) (ascii "da.ta") = (true, none) ∧
    domainExists (fun _ => ([], some (GoError.dnsError
      ⟨ascii "no such host", ascii "dat.a", [], false, false, true⟩))) (ascii "dat.a") =
        (false, none) ∧
    domainExists (fun _ => ([], some (GoError.dnsError
      ⟨ascii "i/o timeout", ascii "d.ata", [], true, true, false⟩))) (ascii "d.ata") =
        (false, some (GoError.dnsError
          ⟨ascii "i/o timeout", ascii "d.ata", [], true, true, false⟩)) :=
  ⟨(domainExists_classification _ (ascii "da.ta")).1 ⟨ascii "ns.example."⟩ [] rfl,
   (domainExists_classification _ (ascii "dat.a")).2.1 [] _ rfl (by decide),
   (domainExists_classification _ (ascii "d.ata")).2.2 [] _ rfl (by decide)⟩

/-- C8, counterexample. A lookup that succeeds with no record is not the no-such-host
failure, yet the domain is written to standard output. -/
theorem domainHandler_stdout_counterexample :
    isNoSuchHost ((fun _ => (([], none) : LookupResult)) (ascii "dat.a")).2 = false ∧
    (domainHandler (fun _ => ([], none)) (fun _ => []) [ascii "dat.a"] ⟨[], []⟩).stdout =
      [ascii "dat.a" ++ [10]] ∧
    ¬ ((domainHandler (fun _ => ([], none)) (fun _ => []) [ascii "dat.a"] ⟨[], []⟩).stdout =
        [ascii "dat.a" ++ [10]] ↔
       isNoSuchHost ((fun _ => (([], none) : LookupResult)) (ascii "dat.a")).2 = true) := by
  decide

/-- C8, amended. `domainHandler` writes the domain (followed by a newline) to standard
output exactly when the lookup failed with the no-such-host error or succeeded with no
record; otherwise standard output is left as it was.  Over the whole channel, standard
output receives those domains, in the order received. -/
theorem domainHandler_stdout_iff (LookupNS : GoString → LookupResult)
    (errorText : GoError → GoString) :
    (∀ (out : Sinks) (domain : GoString),
      ((handleDomain LookupNS errorText out domain).stdout = out.stdout ++ [domain ++ [10]] ∨
        (handleDomain LookupNS errorText out domain).stdout = out.stdout) ∧
      ((handleDomain LookupNS errorText out domain).stdout = out.stdout ++ [domain ++ [10]] ↔
        (isNoSuchHost (LookupNS domain).2 = true ∨ LookupNS domain = ([], none)))) ∧
    (∀ (domainChan : List GoString) (out : Sinks),
      (domainHandler LookupNS errorText domainChan out).stdout =
        out.stdout ++ (domainChan.filter (fun d =>
          isNoSuchHost (LookupNS d).2 || decide (LookupNS d = ([], none)))).map
            (fun d => d ++ [10])) := by
  have key : ∀ (out : Sinks) (domain : GoString),
      (handleDomain LookupNS errorText out domain).stdout =
        if (isNoSuchHost (LookupNS domain).2 || decide (LookupNS domain = ([], none))) = true
        then out.stdout ++ [domain ++ [10]] else out.stdout := by
    intro out domain
    rcases hL : LookupNS domain with ⟨nss, err⟩
    cases err with
    | none =>
      cases nss with
      | nil => simp [handleDomain, domainExists, hL, isNoSuchHost]
      | cons ns nss => simp [handleDomain, domainExists, hL, isNoSuchHost]
    | some e =>
      cases e with
      | dnsError d =>
        by_cases hd : d.Err = noSuchHost
        · simp [handleDomain, domainExists, hL, isNoSuchHost, hd]
        · simp [handleDomain, domainExists, hL, isNoSuchHost, hd]
      | other tag msg => simp [handleDomain, domainExists, hL, isNoSuchHost]
  refine ⟨fun out domain => ?_, ?_⟩
  · rw [key]
    by_cases hc : (isNoSuchHost (LookupNS domain).2 ||
        decide (LookupNS domain = ([], none))) = true
    · rw [if_pos hc]
      simp at hc
      simp [hc]
    · rw [if_neg hc]
      simp at hc
      simp [hc]
  · intro domainChan
    induction domainChan with
    | nil => intro out; simp [domainHandler]
    | cons d ds ih =>
      intro out
      have ih2 := ih (handleDomain LookupNS errorText out d)
      simp only [domainHandler, List.foldl_cons] at ih2 ⊢
      rw [ih2, key]
      by_cases hc : (isNoSuchHost (LookupNS d).2 || decide (LookupNS d = ([], none))) = true
      · rw [if_pos hc, List.filter_cons]
        simp only [hc, if_true]
        simp
      · rw [if_neg hc, List.filter_cons]
        simp only [hc, if_false]
        simp

/-- C9. Per-candidate sink routing: handling one candidate `d` adds at most one write in
total and removes none; when the lookup fails with an error `e` other than no-such-host,
the one write is the line `d: e` on standard error and standard output is untouched; when
the lookup succeeds with at least one record nothing is written at all; so a lookup that
fails with the resolver's timeout error (`Err` being the text `i/o timeout`, `IsTimeout`
set) reaches standard error only. -/
theorem domainHandler_routing (LookupNS : GoString → LookupResult)
    (errorText : GoError → GoString) (out : Sinks) (d : GoString) :
    ((handleDomain LookupNS errorText out d).stdout.length +
        (handleDomain LookupNS errorText out d).stderr.length ≤
      out.stdout.length + out.stderr.length + 1 ∧
      out.stdout <+: (handleDomain LookupNS errorText out d).stdout ∧
      out.stderr <+: (handleDomain LookupNS errorText out d).stderr) ∧
    (∀ nss e, LookupNS d = (nss, some e) → isNoSuchHost (some e) = false →
      (handleDomain LookupNS errorText out d).stderr =
          out.stderr ++ [d ++ ascii ": " ++ errorText e ++ ascii "\n"] ∧
        (handleDomain LookupNS errorText out d).stdout = out.stdout ∧
        domainHandler LookupNS errorText [d] out = handleDomain LookupNS errorText out d) ∧
    (∀ ns nss, LookupNS d = (ns :: nss, none) →
      handleDomain LookupNS errorText out d = out) ∧
    (∀ nss name server temporary notFound,
      LookupNS d = (nss, some (GoError.dnsError
        ⟨ascii "i/o timeout", name, server, true, temporary, notFound⟩)) →
      (handleDomain LookupNS errorText out d).stdout = out.stdout ∧
        (handleDomain LookupNS errorText out d).stderr =
          out.stderr ++ [d ++ ascii ": " ++ errorText (GoError.dnsError
            ⟨ascii "i/o timeout", name, server, true, temporary, notFound⟩) ++ ascii "\n"]) := by
  have hnl : ascii "\n" = [10] := by decide
  have hto : ¬ ascii "i/o timeout" = noSuchHost := by decide
  refine ⟨?_, ?_, ?_, ?_⟩
  · rcases hL : LookupNS d with ⟨nss, err⟩
    cases err with
    | none =>
      cases nss with
      | nil => simp [handleDomain, domainExists, hL]; omega
      | cons ns nss => simp [handleDomain, domainExists, hL]
    | some e =>
      cases e with
      | dnsError x =>
        by_cases hd : x.Err = noSuchHost
        · simp [handleDomain, domainExists, hL, hd]; omega
        · simp [handleDomain, domainExists, hL, hd]; omega
      | other tag msg => simp [handleDomain, domainExists, hL]; omega
  · intro nss e hL hno
    cases e with
    | dnsError x =>
      have hd : ¬ x.Err = noSuchHost := by simpa [isNoSuchHost] using hno
      simp [handleDomain, domainHandler, domainExists, hL, hd, hnl]
    | other tag msg => simp [handleDomain, domainHandler, domainExists, hL, hnl]
  · intro ns nss hL
    simp [handleDomain, domainExists, hL]
  · intro nss name server temporary notFound hL
    simp [handleDomain, domainExists, hL, hto, hnl]

/-- Scenario D of the specification as instances of C9: a timeout reaches standard error
only, and a lookup returning a record writes nothing. -/
theorem domainHandler_routing_witness :
    (handleDomain (fun _ => ([], some (GoError.dnsError
        ⟨ascii "i/o timeout", ascii "d.ata", [], true, true, false⟩)))
      (fun _ => ascii "lookup d.ata: i/o timeout") ⟨[], []⟩ (ascii "d.ata")).stdout = [] ∧
    (handleDomain (fun _ => ([], some (GoError.dnsError
        ⟨ascii "i/o timeout", ascii "d.ata", [], true, true, false⟩)))
      (fun _ => ascii "lookup d.ata: i/o timeout") ⟨[], []⟩ (ascii "d.ata")).stderr =
        [] ++ [ascii "d.ata" ++ ascii ": " ++ ascii "lookup d.ata: i/o timeout" ++ ascii "\n"] ∧
    handleDomain (fun _ => ([⟨ascii "ns.example."⟩], none)) (fun _ => []) ⟨[], []⟩
      (ascii "da.ta") = ⟨[], []⟩ :=
  ⟨((domainHandler_routing _ (fun _ => ascii "lookup d.ata: i/o timeout") ⟨[], []⟩
      (ascii "d.ata")).2.2.2 [] (ascii "d.ata") [] true false rfl).1,
   ((domainHandler_routing _ (fun _ => ascii "lookup d.ata: i/o timeout") ⟨[], []⟩
      (ascii "d.ata")).2.1 [] _ rfl (by decide)).1,
   (domainHandler_routing _ (fun _ => []) ⟨[], []⟩ (ascii "da.ta")).2.2.1
      ⟨ascii "ns.example."⟩ [] rfl⟩

/-- C10, counterexample. Two `DNSError` values with the same name, server and flags that
differ only in the text of `Err` are classified differently: the one reading
`no such host` is Unregistered, the other Indeterminate. -/
theorem domainExists_message_counterexample :
    agreeUpToMessage
      (GoError.dnsError ⟨ascii "no such host", ascii "dat.a", [], false, false, true⟩)
      (GoError.dnsError ⟨ascii "no such domain", ascii "dat.a", [], false, false, true⟩) =
        true ∧
    outcomeOf (domainExists (fun _ => ([], some (GoError.dnsError
      ⟨ascii "no such host", ascii "dat.a", [], false, false, true⟩))) (ascii "dat.a")) =
        LookupOutcome.Unregistered ∧
    outcomeOf (domainExists (fun _ => ([], some (GoError.dnsError
      ⟨ascii "no such domain", ascii "dat.a", [], false, false, true⟩))) (ascii "dat.a")) =
        LookupOutcome.Indeterminate := by
  decide

/-- C10, amended. `domainExists` tells does-not-exist from other failures by the dynamic
type of the error and the text of `Err`: a `DNSError` is classified Unregistered exactly
when its `Err` equals `no such host` and Indeterminate otherwise, whatever its name,
server and flags; two `DNSError` values with equal `Err` are classified alike; an error of
any other type is Indeterminate whatever its message. -/
theorem domainExists_by_type_and_text (LookupNS : GoString → LookupResult) (name : GoString) :
    (∀ nss (e : DNSError), LookupNS name = (nss, some (GoError.dnsError e)) →
      (outcomeOf (domainExists LookupNS name) = LookupOutcome.Unregistered ↔
        e.Err = noSuchHost) ∧
      (outcomeOf (domainExists LookupNS name) = LookupOutcome.Indeterminate ↔
        e.Err ≠ noSuchHost)) ∧
    (∀ (LookupNS2 : GoString → LookupResult) (name2 : GoString) nss nss2 (e e2 : DNSError),
      LookupNS name = (nss, some (GoError.dnsError e)) →
      LookupNS2 name2 = (nss2, some (GoError.dnsError e2)) → e.Err = e2.Err →
      outcomeOf (domainExists LookupNS name) = outcomeOf (domainExists LookupNS2 name2)) ∧
    (∀ nss tag msg, LookupNS name = (nss, some (GoError.other tag msg)) →
      outcomeOf (domainExists LookupNS name) = LookupOutcome.Indeterminate) := by
  have hdns : ∀ (L : GoString → LookupResult) (n : GoString) nss (e : DNSError),
      L n = (nss, some (GoError.dnsError e)) →
      outcomeOf (domainExists L n) =
        if e.Err = noSuchHost then LookupOutcome.Unregistered
        else LookupOutcome.Indeterminate := by
    intro L n nss e hL
    by_cases hd : e.Err = noSuchHost
    · simp [domainExists, hL, hd, outcomeOf]
    · simp [domainExists, hL, hd, outcomeOf]
  refine ⟨?_, ?_, ?_⟩
  · intro nss e hL
    rw [hdns LookupNS name nss e hL]
    by_cases hd : e.Err = noSuchHost <;> simp [hd]
  · intro L2 n2 nss nss2 e e2 hL hL2 heq
    rw [hdns LookupNS name nss e hL, hdns L2 n2 nss2 e2 hL2, heq]
  · intro nss tag msg hL
    simp [domainExists, hL, outcomeOf]

/-- Instances of the amended C10: the no-such-host text gives Unregistered whatever the
flags, and two errors with the same text are classified alike. -/
theorem domainExists_by_type_and_text_witness :
    outcomeOf (domainExists (fun _ => ([], some (GoError.dnsError
      ⟨ascii "no such host", ascii "dat.a", [], true, true, false⟩))) (ascii "dat.a")) =
        LookupOutcome.Unregistered ∧
    outcomeOf (domainExists (fun _ => ([], some (GoError.dnsError
      ⟨ascii "no such host", ascii "dat.a", [], true, true, false⟩))) (ascii "dat.a")) =
    outcomeOf (domainExists (fun _ => ([], some (GoError.dnsError
      ⟨ascii "no such host", ascii "da.ta", ascii "10.0.0.1:53", false, false, true⟩)))
        (ascii "da.ta")) ∧
    outcomeOf (domainExists (fun _ => ([], some (GoError.other 0 (ascii "no such host"))))
      (ascii "dat.a")) = LookupOutcome.Indeterminate :=
  ⟨((domainExists_by_type_and_text _ (ascii "dat.a")).1 [] _ rfl).1.2 (by decide),
   (domainExists_by_type_and_text _ (ascii "dat.a")).2.1 _ (ascii "da.ta") [] [] _ _ rfl rfl
      (by decide),
   (domainExists_by_type_and_text _ (ascii "dat.a")).2.2 [] 0 (ascii "no such host") rfl⟩

/-! ## Line cleaning -/

theorem splitNewline_ne_nil (text : GoString) : splitNewline text ≠ [] := by
  cases text with
  | nil => simp [splitNewline]
  | cons c rest =>
    rw [splitNewline]
    split
    · simp
    · split <;> simp

theorem intercalate_splitNewline (text : GoString) :
    [(10 : UInt8)].intercalate (splitNewline text) = text := by
  induction text with
  | nil => simp [splitNewline, List.intercalate]
  | cons c rest ih =>
    rw [splitNewline]
    by_cases hc : c = 10
    · rw [if_pos hc]
      rcases hs : splitNewline rest with _ | ⟨seg, segs⟩
      · exact absurd hs (splitNewline_ne_nil rest)
      · rw [hs] at ih
        rw [hc, ← ih]
        simp [List.intercalate]
    · rw [if_neg hc]
      rcases hs : splitNewline rest with _ | ⟨seg, segs⟩
      · exact absurd hs (splitNewline_ne_nil rest)
      · rw [hs] at ih
        simp only
        rw [← ih]
        cases segs <;> simp [List.intercalate]

theorem not_mem_splitNewline (text : GoString) :
    ∀ seg ∈ splitNewline text, (10 : UInt8) ∉ seg := by
  induction text with
  | nil => simp [splitNewline]
  | cons c rest ih =>
    rw [splitNewline]
    by_cases hc : c = 10
    · rw [if_pos hc]
      intro seg hseg
      rcases List.mem_cons.1 hseg with h | h
      · simp [h]
      · exact ih seg h
    · rw [if_neg hc]
      rcases hs : splitNewline rest with _ | ⟨seg0, segs⟩
      · exact absurd hs (splitNewline_ne_nil rest)
      · rw [hs] at ih
        intro seg hseg
        rcases List.mem_cons.1 hseg with h | h
        · rw [h]
          have := ih seg0 (List.mem_cons_self _ _)
          simp only [List.mem_cons, not_or]
          exact ⟨fun h10 => hc h10.symm, this⟩
        · exact ih seg (List.mem_cons_of_mem _ h)

/-- The loop appends, to the lines already kept, the segments that are neither empty nor
start with `#`. -/
theorem linesLoop_eq (segs : List GoString) : ∀ (acc : List GoString),
    linesLoop segs acc =
      some (acc ++ segs.filter (fun seg => !(decide (seg.length = 0) || seg.head? == some 35))) := by
  induction segs with
  | nil => intro acc; simp [linesLoop]
  | cons seg segs ih =>
    intro acc
    cases seg with
    | nil => simp [linesLoop, ih]
    | cons c cs =>
      by_cases hc : c = 35
      · simp [linesLoop, index, ih, hc]
      · simp [linesLoop, index, ih, hc]

/-- C11. Line cleaning: `splitToLinesWithComments(text)` returns the segments of `text`
between newlines (the segments joined by newlines give back `text`, and none contains a
newline), in their order, without exactly those that are empty or start with `#`; so no
returned line is empty, starts with `#` or contains a newline, and every segment that is
neither empty nor starts with `#` is returned. -/
theorem splitToLinesWithComments_spec (text : GoString) :
    ∃ lines, splitToLinesWithComments text = some lines ∧
      lines = (splitNewline text).filter
        (fun seg => !(decide (seg.length = 0) || seg.head? == some 35)) ∧
      [(10 : UInt8)].intercalate (splitNewline text) = text ∧
      lines.Sublist (splitNewline text) ∧
      (∀ l ∈ lines, l ≠ [] ∧ l.head? ≠ some 35 ∧ (10 : UInt8) ∉ l) ∧
      (∀ seg ∈ splitNewline text, seg ≠ [] → seg.head? ≠ some 35 → seg ∈ lines) := by
  refine ⟨_, by rw [splitToLinesWithComments, linesLoop_eq]; simp, rfl,
    intercalate_splitNewline text, List.filter_sublist _, ?_, ?_⟩
  · intro l hl
    rw [List.mem_filter] at hl
    obtain ⟨hmem, hp⟩ := hl
    simp at hp
    refine ⟨?_, ?_, not_mem_splitNewline text l hmem⟩
    · intro h; exact hp.1 (by simp [h])
    · exact hp.2
  · intro seg hmem hne hhash
    rw [List.mem_filter]
    refine ⟨hmem, ?_⟩
    simp [hne, hhash]

namespace PostfixTree

/-! ## Consequences for the later claims -/

theorem matchRev_nodup (rest : List UInt8) (t : PostfixTree) (suf : GoString) :
    (matchRev t rest suf).Nodup := by
  refine (matchRev_pairwise rest t suf).imp ?_
  intro a b hlt hab
  rw [hab] at hlt
  exact lt_irrefl _ hlt

/-- Two lists that are strictly increasing in length and have the same elements are equal. -/
theorem eq_of_pairwise_length_of_mem_iff {l₁ l₂ : List GoString}
    (h₁ : l₁.Pairwise (fun a b => a.length < b.length))
    (h₂ : l₂.Pairwise (fun a b => a.length < b.length))
    (hmem : ∀ s, s ∈ l₁ ↔ s ∈ l₂) : l₁ = l₂ := by
  have hne : ∀ {l : List GoString}, l.Pairwise (fun a b => a.length < b.length) → l.Nodup := by
    intro l hl
    refine hl.imp ?_
    intro a b hlt hab
    rw [hab] at hlt
    exact lt_irrefl _ hlt
  have hperm : l₁.Perm l₂ := (List.perm_ext_iff_of_nodup (hne h₁) (hne h₂)).2 hmem
  haveI : IsAntisymm GoString (fun a b => a.length < b.length) :=
    ⟨fun a b hab hba => absurd hab (Nat.lt_asymm hba)⟩
  exact List.eq_of_perm_of_sorted hperm h₁ h₂

theorem matchRev_congr (t₁ t₂ : PostfixTree) (w : GoString)
    (h : ∀ p, containsPath t₁ p = containsPath t₂ p) :
    matchRev t₁ w.reverse [] = matchRev t₂ w.reverse [] := by
  refine eq_of_pairwise_length_of_mem_iff (matchRev_pairwise _ _ _) (matchRev_pairwise _ _ _) ?_
  intro s
  rw [mem_matchRev_word, mem_matchRev_word, h]

theorem containsPath_eq_nodeAt (p : List UInt8) : ∀ (t : PostfixTree),
    containsPath t p = true ↔ ∃ n, nodeAt t p = some n ∧ n.contained = true := by
  induction p with
  | nil => intro t; simp [containsPath, nodeAt]
  | cons b rest ih =>
    intro t
    rw [containsPath, nodeAt]
    cases t.lookup b with
    | none => simp
    | some s => exact ih s

theorem setChild_comm (t x y : PostfixTree) (a b : UInt8) (hab : a ≠ b) :
    setChild (setChild t a x) b y = setChild (setChild t b y) a x := by
  have hf : (fun k => if k = b then some y else (setChild t a x).lookup k) =
      (fun k => if k = a then some x else (setChild t b y).lookup k) := by
    funext k
    simp only [lookup_setChild]
    by_cases hka : k = a
    · subst hka; simp [hab]
    · simp [hka]
  show mk (some (fun k => if k = b then some y else (setChild t a x).lookup k))
      (setChild t a x).contained =
    mk (some (fun k => if k = a then some x else (setChild t b y).lookup k))
      (setChild t b y).contained
  rw [hf]
  rfl

theorem childOrNew_setChild_same (t x : PostfixTree) (a : UInt8) :
    childOrNew (setChild t a x) a = x := by
  simp [childOrNew, lookup_setChild]

theorem childOrNew_setChild_other (t x : PostfixTree) (a b : UInt8) (hab : b ≠ a) :
    childOrNew (setChild t a x) b = childOrNew t b := by
  simp [childOrNew, lookup_setChild, hab]

theorem insertRev_comm (p : List UInt8) : ∀ (q : List UInt8) (t : PostfixTree),
    insertRev (insertRev t p) q = insertRev (insertRev t q) p := by
  induction p with
  | nil =>
    intro q t
    cases q with
    | nil => rfl
    | cons b q => rfl
  | cons a p ih =>
    intro q t
    cases q with
    | nil => rfl
    | cons b q =>
      by_cases hab : a = b
      · subst hab
        simp only [insertRev, childOrNew_setChild_same, setChild_setChild]
        rw [ih]
      · have hba : b ≠ a := fun h => hab h.symm
        simp only [insertRev]
        rw [childOrNew_setChild_other _ _ _ _ hba, childOrNew_setChild_other _ _ _ _ hab,
          setChild_comm _ _ _ _ _ hab]

end PostfixTree

namespace PostfixTree

theorem getLast?_of_pairwise_length {l : List GoString} {x : GoString}
    (hpw : l.Pairwise (fun a b => a.length < b.length)) (hx : x ∈ l)
    (hmax : ∀ s ∈ l, s.length ≤ x.length) : l.getLast? = some x := by
  rcases List.eq_nil_or_concat l with hl | ⟨init, y, hl⟩
  · subst hl; simp at hx
  · rw [List.concat_eq_append] at hl
    subst hl
    rw [List.getLast?_concat]
    rcases List.mem_append.1 hx with hin | hlast
    · have hlt : x.length < y.length :=
        (List.pairwise_append.1 hpw).2.2 x hin y (by simp)
      have hle := hmax y (by simp)
      omega
    · simp at hlast
      rw [hlast]

theorem matchRev_head_of_contained (t : PostfixTree) (rest : List UInt8) (suf : GoString)
    (hc : t.contained = true) : (matchRev t rest suf).head? = some suf := by
  cases rest with
  | nil => simp [matchRev, hc]
  | cons b rest => simp [matchRev, hc]

end PostfixTree

/-! ## Contents of the trie, candidates, totality -/

/-- C12. Candidate generation depends only on the trie contents: two lists with the same
elements (any order, any multiplicity), inserted into the zero-value tree, give trees with
the same `GetPostfixes(w)` and the same `postfixSplit(w)`, both of which return; and from
any tree, `AddPostfix(a)` then `AddPostfix(b)` gives the same tree as `AddPostfix(b)` then
`AddPostfix(a)`. -/
theorem candidates_depend_on_contents (T₁ T₂ : List GoString) (w : GoString)
    (h : ∀ s, s ∈ T₁ ↔ s ∈ T₂) :
    (∃ pt₁ pt₂ ps cs, addAll zero T₁ = some pt₁ ∧ addAll zero T₂ = some pt₂ ∧
      pt₁.GetPostfixes w = some ps ∧ pt₂.GetPostfixes w = some ps ∧
      postfixSplit w pt₁ = some cs ∧ postfixSplit w pt₂ = some cs) ∧
    (∀ (pt : PostfixTree) (a b : GoString),
      ∃ ta tab tb tba, pt.AddPostfix a = some ta ∧ ta.AddPostfix b = some tab ∧
        pt.AddPostfix b = some tb ∧ tb.AddPostfix a = some tba ∧ tab = tba) := by
  have hcp : ∀ p, containsPath (T₁.foldl (fun t q => insertRev t q.reverse) zero) p =
      containsPath (T₂.foldl (fun t q => insertRev t q.reverse) zero) p := by
    intro p
    rw [containsPath_foldl, containsPath_foldl]
    have : decide (p.reverse ∈ T₁) = decide (p.reverse ∈ T₂) := by
      simp [h p.reverse]
    rw [this]
  have hm := matchRev_congr _ _ w hcp
  refine ⟨⟨_, _, _, _, addAll_eq T₁ zero, addAll_eq T₂ zero, GetPostfixes_eq _ w, ?_,
    postfixSplit_eq w _, ?_⟩, ?_⟩
  · rw [GetPostfixes_eq, hm]
  · rw [postfixSplit_eq, hm]
  · intro pt a b
    exact ⟨_, _, _, _, AddPostfix_eq pt a, AddPostfix_eq _ b, AddPostfix_eq pt b,
      AddPostfix_eq _ a, insertRev_comm _ _ _⟩

/-- An instance of C12: `a, ta` and `ta, a, a` give the same matches and candidates for
`data`. -/
theorem candidates_depend_on_contents_witness :
    (∀ s, s ∈ [ascii "a", ascii "ta"] ↔ s ∈ [ascii "ta", ascii "a", ascii "a"]) ∧
    ∃ pt₁ pt₂ ps cs, addAll zero [ascii "a", ascii "ta"] = some pt₁ ∧
      addAll zero [ascii "ta", ascii "a", ascii "a"] = some pt₂ ∧
      pt₁.GetPostfixes (ascii "data") = some ps ∧ pt₂.GetPostfixes (ascii "data") = some ps ∧
      postfixSplit (ascii "data") pt₁ = some cs ∧ postfixSplit (ascii "data") pt₂ = some cs :=
  ⟨by intro s; simp [or_comm],
   (candidates_depend_on_contents [ascii "a", ascii "ta"] [ascii "ta", ascii "a", ascii "a"]
      (ascii "data") (by intro s; simp [or_comm])).1⟩

/-- C13. One run of `main` with one candidate and 100 workers: worker 0 receives `rad.io`,
then `main` closes the channel and returns.  The program has ended (no event can follow),
the candidate was handed to a worker, and no loop body has completed: nothing was checked
and nothing reached either sink, although the lookup would have reported the domain as not
existing. -/
theorem pipeline_drops_in_flight :
    ∃ s, Pipeline.run
        (fun _ => ([], some (GoError.dnsError
          ⟨ascii "no such host", ascii "rad.io", [], false, false, true⟩)))
        (fun _ => [])
        (Pipeline.start 100 [ascii "rad.io"]) [Event.handOff 0, Event.mainReturns] = some s ∧
      s.exited = true ∧ s.pending = [] ∧ s.workers[0]? = some (some (ascii "rad.io")) ∧
      s.checked = [] ∧ s.out = ⟨[], []⟩ ∧
      (∀ e, Pipeline.step
        (fun _ => ([], some (GoError.dnsError
          ⟨ascii "no such host", ascii "rad.io", [], false, false, true⟩)))
        (fun _ => []) s e = none) ∧
      handleDomain
        (fun _ => ([], some (GoError.dnsError
          ⟨ascii "no such host", ascii "rad.io", [], false, false, true⟩)))
        (fun _ => []) ⟨[], []⟩ (ascii "rad.io") = ⟨[ascii "rad.io" ++ [10]], []⟩ := by
  refine ⟨_, rfl, rfl, rfl, by decide, rfl, rfl, ?_, by decide⟩
  intro e
  cases e <;> rfl

/-- C14. Trie representation invariant: after inserting the strings of `T` into the
zero-value tree, for every byte sequence `p` the node reached from the root along the
child edges `p[0]`, `p[1]`, ... exists and has `contained = true` if and only if the
reverse of `p` is in `T`; the root is `contained` iff the empty string was inserted. -/
theorem trie_invariant (T : List GoString) :
    ∃ pt, addAll zero T = some pt ∧
      (∀ p, (∃ n, nodeAt pt p = some n ∧ n.contained = true) ↔ p.reverse ∈ T) ∧
      (pt.contained = true ↔ [] ∈ T) := by
  have hall : ∀ p, (∃ n, nodeAt (T.foldl (fun t q => insertRev t q.reverse) zero) p = some n ∧
      n.contained = true) ↔ p.reverse ∈ T := by
    intro p
    rw [← containsPath_eq_nodeAt, containsPath_foldl]
    simp [containsPath_zero]
  refine ⟨_, addAll_eq T zero, hall, ?_⟩
  have := hall []
  simpa [nodeAt] using this

/-- C15. Empty-label candidates are not filtered: if the string `t` (non-empty or not) is
among the strings inserted, into any tree, then `postfixSplit(t)` contains `"." + t`, and
that is its last element. -/
theorem postfixSplit_empty_label (pt₀ : PostfixTree) (T : List GoString) (t : GoString)
    (ht : t ∈ T) :
    ∃ pt, addAll pt₀ T = some pt ∧ ∃ cs, postfixSplit t pt = some cs ∧
      ascii "." ++ t ∈ cs ∧ cs.getLast? = some (ascii "." ++ t) := by
  have hmem : t ∈ matchRev (T.foldl (fun t p => insertRev t p.reverse) pt₀) t.reverse [] := by
    rw [mem_matchRev_word, containsPath_foldl]
    exact ⟨List.suffix_refl t, by simp [ht]⟩
  have hlast : (matchRev (T.foldl (fun t p => insertRev t p.reverse) pt₀) t.reverse []).getLast?
      = some t := by
    refine getLast?_of_pairwise_length (matchRev_pairwise _ _ _) hmem ?_
    intro s hs
    exact ((mem_matchRev_word _ t s).1 hs).1.length_le
  have hcand : sprintfDot (t.take (t.length - t.length)) t = ascii "." ++ t := by
    simp [sprintfDot]
  refine ⟨_, addAll_eq T pt₀, _, postfixSplit_eq t _, ?_, ?_⟩
  · rw [← hcand]
    exact List.mem_map_of_mem _ hmem
  · rw [List.getLast?_map, hlast, ← hcand]
    rfl

/-- An instance of C15: with `a` and `io` inserted, `postfixSplit` of `io` ends with `.io`. -/
theorem postfixSplit_empty_label_witness :
    ascii "io" ∈ [ascii "a", ascii "io"] ∧
    ∃ pt, addAll zero [ascii "a", ascii "io"] = some pt ∧
      ∃ cs, postfixSplit (ascii "io") pt = some cs ∧
        ascii "." ++ ascii "io" ∈ cs ∧ cs.getLast? = some (ascii "." ++ ascii "io") :=
  ⟨by decide,
    postfixSplit_empty_label zero [ascii "a", ascii "io"] (ascii "io") (by decide)⟩

/-- C16. Empty-string insertion: for every tree, `AddPostfix("")` returns the same tree
with `contained` set to true at the root: the child map is the same (no child is created
or changed).  Afterwards, for every word `w`, the first element of `GetPostfixes(w)` is
the empty string and the first candidate of `postfixSplit(w)` is `w + "."`. -/
theorem AddPostfix_empty (pt : PostfixTree) :
    ∃ pt₁, pt.AddPostfix [] = some pt₁ ∧ pt₁.contained = true ∧
      pt₁.subTrees = pt.subTrees ∧ pt₁ = PostfixTree.mk pt.subTrees true ∧
      ∀ w : GoString, ∃ ps cs, pt₁.GetPostfixes w = some ps ∧ ps.head? = some [] ∧
        postfixSplit w pt₁ = some cs ∧ cs.head? = some (w ++ ascii ".") := by
  refine ⟨_, AddPostfix_eq pt [], rfl, rfl, rfl, ?_⟩
  intro w
  have hh : (matchRev (insertRev pt ([] : GoString).reverse) w.reverse []).head? = some [] :=
    matchRev_head_of_contained _ _ _ rfl
  refine ⟨_, _, GetPostfixes_eq _ w, hh, postfixSplit_eq w _, ?_⟩
  rw [List.head?_map, hh]
  simp [sprintfDot]

/-- C17. Soundness and exactness of matching: after inserting the strings of `T` into the
zero-value tree, the elements of `GetPostfixes(x)` are exactly the strings that are a
byte-wise suffix of `x` and an element of `T`, and none is listed twice. -/
theorem GetPostfixes_exact (T : List GoString) (x : GoString) :
    ∃ pt l, addAll zero T = some pt ∧ pt.GetPostfixes x = some l ∧
      (∀ s, s ∈ l ↔ (s <:+ x ∧ s ∈ T)) ∧ l.Nodup := by
  refine ⟨_, _, addAll_eq T zero, GetPostfixes_eq _ x, ?_, matchRev_nodup _ _ _⟩
  intro s
  rw [mem_matchRev_word, containsPath_foldl]
  simp [containsPath_zero]

/-- C18. Candidates restore the word: for every word `w` and every tree, each candidate
`c` of `postfixSplit(w)`, paired with its matched suffix `s`, has length `len(w)+1`, has
the byte `.` at index `len(w)-len(s)`, and without that byte is `w`. -/
theorem postfixSplit_restores (w : GoString) (pt : PostfixTree) :
    ∃ ps cs, pt.GetPostfixes w = some ps ∧ postfixSplit w pt = some cs ∧
      List.Forall₂ (fun s cand =>
        cand.length = w.length + 1 ∧ cand[w.length - s.length]? = some 46 ∧
          cand.eraseIdx (w.length - s.length) = w) ps cs := by
  refine ⟨_, _, GetPostfixes_eq pt w, postfixSplit_eq w pt, ?_⟩
  rw [List.forall₂_map_right_iff, List.forall₂_same]
  intro s hs
  obtain ⟨r, hr⟩ := ((mem_matchRev_word pt w s).1 hs).1
  have hdot : ascii "." = [46] := by decide
  have hlen : w.length - s.length = r.length := by
    rw [← hr]; simp
  have htake : w.take (w.length - s.length) = r := by
    rw [hlen, ← hr]; simp
  rw [sprintfDot, htake, hdot, hlen]
  refine ⟨?_, ?_, ?_⟩
  · rw [← hr]; simp; omega
  · rw [List.append_assoc, List.getElem?_append_right (le_refl _)]
    simp
  · rw [List.append_assoc, List.eraseIdx_append_of_length_le (le_refl _)]
    simpa using hr

/-- C19. No duplicate candidates from one word: for every word `w` without a `.` byte and
every tree, the candidates of `postfixSplit(w)` are pairwise distinct. -/
theorem postfixSplit_nodup (w : GoString) (pt : PostfixTree) (h : (46 : UInt8) ∉ w) :
    ∃ cs, postfixSplit w pt = some cs ∧ cs.Nodup ∧ cs.Pairwise (fun a b => a ≠ b) := by
  have hdot : ascii "." = [46] := by decide
  have key : ((matchRev pt w.reverse []).map
      (fun s => sprintfDot (w.take (w.length - s.length)) s)).Pairwise (fun a b => a ≠ b) := by
    rw [List.pairwise_map]
    refine (List.Pairwise.and_mem.1 (matchRev_pairwise w.reverse pt [])).imp ?_
    rintro a b ⟨ha, hb, hlt⟩ heq
    have hla := ((mem_matchRev_word pt w a).1 ha).1.length_le
    have hlb := ((mem_matchRev_word pt w b).1 hb).1.length_le
    have hno : ∀ k, ∀ c ∈ w.take k, (decide (c ≠ (46 : UInt8))) = true := by
      intro k c hc
      have hcw : c ∈ w := List.mem_of_mem_take hc
      simp only [decide_eq_true_eq]
      intro h46
      exact h (h46 ▸ hcw)
    have htw : ∀ s : GoString, (sprintfDot (w.take (w.length - s.length)) s).takeWhile
        (fun c => decide (c ≠ (46 : UInt8))) = w.take (w.length - s.length) := by
      intro s
      rw [sprintfDot, hdot, List.append_assoc, List.takeWhile_append_of_pos (hno _)]
      simp
    have h2 := congrArg (fun c => (c.takeWhile (fun c => decide (c ≠ (46 : UInt8)))).length) heq
    simp only [htw, List.length_take] at h2
    omega
  exact ⟨_, postfixSplit_eq w pt, key, key⟩

/-- An instance of C19: the candidates of `data` in the tree holding `a` and `ta` are
distinct. -/
theorem postfixSplit_nodup_witness :
    (46 : UInt8) ∉ ascii "data" ∧
    ∃ cs, postfixSplit (ascii "data")
        (insertRev (insertRev zero (ascii "a").reverse) (ascii "ta").reverse) = some cs ∧
      cs.Nodup ∧ cs.Pairwise (fun a b => a ≠ b) :=
  ⟨by decide, postfixSplit_nodup (ascii "data") _ (by decide)⟩

/-- C20. Totality and in-bounds access: for every tree (so also every tree reachable from
the zero value, nil child map included) and all strings, `AddPostfix`, `GetPostfixes` and
`postfixSplit` return a result: no index or slice is out of range and the loops end, with
the fuel given and with any larger fuel; every matched suffix is no longer than the word;
and every sequence of `AddPostfix` calls from the zero value returns a tree. -/
theorem total_and_in_bounds (pt : PostfixTree) (p w : GoString) :
    (∃ pt₁, pt.AddPostfix p = some pt₁ ∧
      ∀ fuel, p.length < fuel → addLoop fuel pt p = some pt₁) ∧
    (∃ ps, pt.GetPostfixes w = some ps ∧
      (∀ fuel, w.length < fuel → getLoop w fuel pt w.length [] = some ps) ∧
      (∀ s ∈ ps, s.length ≤ w.length) ∧
      ∃ cs, postfixSplit w pt = some cs ∧ splitLoop w ps [] = some cs) ∧
    (zero.AddPostfix p).isSome = true ∧ (zero.GetPostfixes w).isSome = true ∧
    (postfixSplit w zero).isSome = true ∧
    (∀ T : List GoString, ∃ pt₂, addAll zero T = some pt₂) := by
  refine ⟨⟨_, AddPostfix_eq pt p, fun fuel hf => addLoop_eq fuel pt p hf⟩,
    ⟨_, GetPostfixes_eq pt w, ?_, ?_, _, postfixSplit_eq w pt, ?_⟩, ?_, ?_, ?_,
    fun T => ⟨_, addAll_eq T zero⟩⟩
  · intro fuel hf
    have := getLoop_eq w fuel pt w.length [] (le_refl _) hf
    simpa using this
  · intro s hs
    exact ((mem_matchRev_word pt w s).1 hs).1.length_le
  · rw [splitLoop_eq]
    · simp
    · intro s hs
      exact ((mem_matchRev_word pt w s).1 hs).1.length_le
  · rw [AddPostfix_eq]; rfl
  · rw [GetPostfixes_eq]; rfl
  · rw [postfixSplit_eq]; rfl

end Hipsterdomain
